import Mathlib

/-!
# downsplode: media mirroring of HTML documents

A shallow embedding of `main.go` (package `main` of yobert/downsplode) and the
properties of its layers:

* `download_to` / `download`: the resource mirror cache,
* `walk_doc`: the tree rewriter,
* `walk_fpath`: the mirror driver, which computes the mirrored output paths and hands
  them to the document pipeline `walk_file`.

Conventions of the embedding.

* Go strings are lists of characters (`Str`).  The separators and dots the
  program looks at are ASCII, so bytes and characters agree on them.
* Everything the program asks of the operating system or of the network is a
  `Call`.  A run threads the list of calls issued so far (the trace); the
  answers come from an `Env`, whose every answer may depend on the whole trace,
  so an `Env` is an arbitrary deterministic outside world.
* Writes to standard output (`fmt.Print`, `fmt.Println`) are not part of the
  trace.
* `*html.Node` is the left-child / right-sibling structure of
  `golang.org/x/net/html`: a node points to its `FirstChild` and to its
  `NextSibling`, either of which may be nil.  The back pointers (`Parent`,
  `PrevSibling`, `LastChild`) are determined by these two and are left out.
* `strings.ToLower` and `url.Parse` are parameters of the tree rewriter (`Lib`): what is
  proved of `walk_doc` holds whatever these two functions compute, so in particular for
  the Unicode case folding of `strings.ToLower`.  `walk_file` is a parameter of the
  mirror driver.
-/

namespace Downsplode

/-! ## Strings -/

/-- A Go string. -/
abbrev Str := List Char

/-- Model of `strings.HasPrefix`. -/
def HasPrefix (s pre : Str) : Bool := pre.isPrefixOf s

/-- Model of `strings.HasSuffix`. -/
def HasSuffix (s suf : Str) : Bool := suf.isSuffixOf s

/-- Model of `strings.TrimPrefix`. -/
def TrimPrefix (s pre : Str) : Str := if HasPrefix s pre then s.drop pre.length else s

/-- Model of `strings.Contains`. -/
def Contains : Str → Str → Bool
  | [], sub => sub.isEmpty
  | c :: s, sub => sub.isPrefixOf (c :: s) || Contains s sub

/-! ## `path/filepath` on Unix -/

/-- The inner loop of the `..` case of `filepath.Clean`: starting from the write
index `w`, step back while `w > dotdot` and `buf[w]` is not a separator. -/
def cleanBack (buf : Str) (dotdot : Nat) : Nat → Nat
  | 0 => 0
  | w + 1 => if w + 1 > dotdot ∧ buf.get? (w + 1) ≠ some '/' then cleanBack buf dotdot w else w + 1

/-- The main loop of `filepath.Clean`.  `rest` is `path[r:]`, `out` is the part of the
buffer written so far (`buf[:w]`), `dotdot` is the index where `..` must stop.  Every
iteration consumes at least one character of `rest`, so `fuel = len(path)` is enough. -/
def cleanLoop (rooted : Bool) : Nat → Str → Str → Nat → Str
  | 0, _, out, _ => out
  | fuel + 1, rest, out, dotdot =>
    match rest with
    | [] => out
    | c :: tl =>
      if c = '/' then
        -- empty path element
        cleanLoop rooted fuel tl out dotdot
      else if c = '.' ∧ (tl = [] ∨ tl.head? = some '/') then
        -- . element
        cleanLoop rooted fuel tl out dotdot
      else if c = '.' ∧ tl.head? = some '.' ∧ (tl.tail = [] ∨ tl.tail.head? = some '/') then
        -- .. element: remove to last separator
        if out.length > dotdot then
          cleanLoop rooted fuel tl.tail (out.take (cleanBack out dotdot (out.length - 1))) dotdot
        else if !rooted then
          let out1 := if out.length > 0 then out ++ ['/'] else out
          let out2 := out1 ++ ['.', '.']
          cleanLoop rooted fuel tl.tail out2 out2.length
        else
          cleanLoop rooted fuel tl.tail out dotdot
      else
        -- real path element: add slash if needed, copy element
        let out1 :=
          if (rooted ∧ out.length ≠ 1) ∨ (!rooted ∧ out.length ≠ 0) then out ++ ['/'] else out
        let elem := (c :: tl).takeWhile (fun x => x ≠ '/')
        let rest1 := (c :: tl).dropWhile (fun x => x ≠ '/')
        cleanLoop rooted fuel rest1 (out1 ++ elem) dotdot

/-- Model of `filepath.Clean` (Unix: no volume name, separator `/`). -/
def Clean (path : Str) : Str :=
  if path = [] then ['.']
  else
    let rooted : Bool := path.head? = some '/'
    let out :=
      cleanLoop rooted path.length (if rooted then path.tail else path)
        (if rooted then ['/'] else []) (if rooted then 1 else 0)
    if out = [] then ['.'] else out

/-- Model of `filepath.Dir`: everything up to and including the last separator, cleaned. -/
def Dir (path : Str) : Str :=
  Clean (path.reverse.dropWhile (fun x => x ≠ '/')).reverse

/-- Model of `filepath.Base`: the last element of the path. -/
def Base (path : Str) : Str :=
  if path = [] then ['.']
  else
    let p1 := (path.reverse.dropWhile (fun x => x = '/')).reverse
    let p2 := (p1.reverse.takeWhile (fun x => x ≠ '/')).reverse
    if p2 = [] then ['/'] else p2

/-- Model of `filepath.IsAbs`. -/
def IsAbs (path : Str) : Bool := HasPrefix path ['/']

/-- Model of `filepath.Join` of two elements. -/
def Join (a b : Str) : Str :=
  if a ≠ [] then Clean (a ++ ['/'] ++ b)
  else if b ≠ [] then Clean b
  else []

/-- Model of `filepath.Abs` on Unix; `getwd` is the answer of `os.Getwd`. -/
def Abs (getwd : Except ε Str) (path : Str) : Except ε Str :=
  if IsAbs path then .ok (Clean path)
  else
    match getwd with
    | .error e => .error e
    | .ok wd => .ok (Join wd path)

/-! ## Data of the program -/

deriving instance DecidableEq for Except

/-- The fields of `url.URL` the program depends on. -/
structure URL where
  Scheme : Str
  Host : Str
  Path : Str
  RawQuery : Str
deriving DecidableEq, Repr

/-- Error values.  `sys` is an error produced outside the program (operating system,
network, `url.Parse`); the others are built by the program itself. -/
inductive Err where
  /-- `fmt.Errorf("Invalid download URL %#v", u)` -/
  | invalidURL (u : URL)
  /-- `errors.New(resp.Status)` -/
  | status (s : Str)
  /-- `fmt.Errorf("Content length mismatch (%d != %d)", n, resp.ContentLength)` -/
  | contentLengthMismatch (n len : Int)
  | sys (msg : Str)
  /-- `fmt.Errorf("Cannot walk file %s: %w", s, err)` -/
  | cannotWalk (s : Str) (e : Err)
deriving DecidableEq, Repr

/-- The fields of `http.Response` the program reads. -/
structure Response where
  Status : Str
  StatusCode : Int
  ContentLength : Int
deriving DecidableEq, Repr

/-- What the program asks of the outside world. -/
inductive Call where
  /-- `os.Stat(name)` -/
  | stat (name : Str)
  /-- `os.MkdirAll(path, 0755)` -/
  | mkdirAll (path : Str)
  /-- `os.CreateTemp(dir, pattern)` -/
  | createTemp (dir pattern : Str)
  /-- `http.Get(u.String())` -/
  | httpGet (u : URL)
  /-- `io.Copy(fh, resp.Body)`, `fh` being the temporary file of that name -/
  | copy (name : Str)
  /-- `fh.Close()` -/
  | close (name : Str)
  /-- `resp.Body.Close()` -/
  | closeBody
  /-- `os.Rename(oldpath, newpath)` -/
  | rename (oldpath newpath : Str)
  /-- `os.Remove(name)` -/
  | remove (name : Str)
  /-- `time.Sleep(time.Second)` -/
  | sleep
deriving DecidableEq, Repr

/-- The outside world: the answer to each call, given the calls issued before it. -/
structure Env where
  /-- `os.Stat` returned a nil error -/
  stat : List Call → Str → Bool
  mkdirAll : List Call → Str → Option Err
  /-- the name of the temporary file created -/
  createTemp : List Call → Str → Str → Except Err Str
  httpGet : List Call → URL → Except Err Response
  /-- the number of bytes `io.Copy` wrote, and its error -/
  copy : List Call → Str → Int × Option Err
  close : List Call → Str → Option Err
  rename : List Call → Str → Str → Option Err

/-- `http.StatusOK` -/
def StatusOK : Int := 200

/-! ## The resource mirror cache -/

/-- The function `download_to` of `main.go`.  The three deferred calls run at every return
after their registration, last registered first: `resp.Body.Close()`, `fh.Close()`,
`os.Remove(fh.Name())`. -/
def download_to (env : Env) (u : URL) (outbase fpath : Str) (t : List Call) :
    Option Err × List Call :=
  let t1 := t ++ [.createTemp outbase "download_tmp_".toList]
  match env.createTemp t outbase "download_tmp_".toList with
  | .error e => (some e, t1)
  | .ok name =>
    let t2 := t1 ++ [.httpGet u]
    match env.httpGet t1 u with
    | .error e => (some e, t2 ++ [.close name, .remove name])
    | .ok resp =>
      if resp.StatusCode ≠ StatusOK then
        (some (.status resp.Status), t2 ++ [.closeBody, .close name, .remove name])
      else
        let t3 := t2 ++ [.copy name]
        match env.copy t2 name with
        | (_, some e) => (some e, t3 ++ [.closeBody, .close name, .remove name])
        | (n, none) =>
          let t4 := t3 ++ [.close name]
          match env.close t3 name with
          | some e => (some e, t4 ++ [.closeBody, .close name, .remove name])
          | none =>
            if n ≠ resp.ContentLength ∧ resp.ContentLength ≠ -1 then
              (some (.contentLengthMismatch n resp.ContentLength),
                t4 ++ [.closeBody, .close name, .remove name])
            else
              let t5 := t4 ++ [.rename name fpath]
              match env.rename t4 name fpath with
              | some e => (some e, t5 ++ [.closeBody, .close name, .remove name])
              | none => (none, t5 ++ [.closeBody, .close name, .remove name])

/-- The function `download` of `main.go`. -/
def download (env : Env) (u : URL) (outbase : Str) (t : List Call) :
    Except Err Str × List Call :=
  let dir := outbase ++ "extern/".toList ++ u.Host
  let newpath := Clean u.Path
  if Contains newpath "..".toList then (.error (.invalidURL u), t)
  else
    let new_full := dir ++ newpath
    let relative_path := "/".toList ++ TrimPrefix new_full outbase
    let t1 := t ++ [.stat new_full]
    if env.stat t new_full then
      -- Already downloaded
      (.ok relative_path, t1)
    else
      let t2 := t1 ++ [.mkdirAll (Dir new_full)]
      match env.mkdirAll t1 (Dir new_full) with
      | some e => (.error e, t2)
      | none =>
        match download_to env u outbase new_full t2 with
        | (some e, t3) => (.error e, t3)
        | (none, t3) => (.ok relative_path, t3 ++ [.sleep])

/-! ## The tree rewriter -/

/-- `html.NodeType` -/
inductive NodeType where
  | ErrorNode | TextNode | DocumentNode | ElementNode | CommentNode | DoctypeNode | RawNode
deriving DecidableEq, Repr

/-- `html.Attribute` -/
structure Attribute where
  Namespace : Str
  Key : Str
  Val : Str
deriving DecidableEq, Repr

/-- A `*html.Node`: nil, or a node with its type, data (the tag name of an element),
namespace, attributes, first child and next sibling. -/
inductive Node where
  | nil
  | mk (Typ : NodeType) (Data : Str) (Namespace : Str) (Attr : List Attribute)
      (FirstChild NextSibling : Node)
deriving DecidableEq, Repr

/-- The two library functions `walk_doc` applies to the text of an attribute. -/
structure Lib where
  /-- `strings.ToLower` -/
  ToLower : Str → Str
  /-- `url.Parse` -/
  Parse : Str → Except Err URL

/-- A resolver: what `walk_doc` calls on a candidate URL.  In the program it is `download`;
`σ` is whatever state the resolver reads and changes. -/
abbrev Resolver (σ : Type) := URL → Str → σ → Except Err Str × σ

/-- The outcome of the attribute loop: the error returned (if any), the attributes as the
loop leaves them, the state afterwards. -/
structure AttrResult (σ : Type) where
  err : Option Err
  attrs : List Attribute
  state : σ

/-- The outcome of a walk: the error returned (if any), the tree as the walk leaves it,
the state afterwards. -/
structure WalkResult (σ : Type) where
  err : Option Err
  node : Node
  state : σ

/-- The suffix list of `walk_doc`, as written there. -/
def suffixes : List Str :=
  [".jpeg".toList, ".jpg".toList, ".png".toList, ".tif".toList, ".tiff".toList,
   ".hiec".toList, ".mp4".toList, ".avif".toList, ".mpeg".toList, ".mpg".toList,
   ".mp3".toList, ".mp4".toList, ".gif".toList]

/-- The loop `for _, suf := range ... { if strings.HasSuffix(p, suf) { match = true } }`. -/
def suffixMatch (p : Str) : Bool :=
  suffixes.foldl (fun m suf => if HasSuffix p suf then true else m) false

/-- Put an attribute back in front of the outcome of the rest of the loop. -/
def AttrResult.push (a : Attribute) (r : AttrResult σ) : AttrResult σ :=
  ⟨r.err, a :: r.attrs, r.state⟩

/-- The loop `for i, attr := range c.Attr` of `walk_doc`, on the attributes not yet
visited.  An unparsable value returns at once; a failed resolution is printed and the
loop goes on. -/
def walk_attrs (lib : Lib) (resolve : Resolver σ) (outbase : Str) :
    List Attribute → σ → AttrResult σ
  | [], s => ⟨none, [], s⟩
  | attr :: rest, s =>
    let key := lib.ToLower attr.Key
    if key = "src".toList ∨ key = "href".toList then
      match lib.Parse attr.Val with
      | .error err => ⟨some err, attr :: rest, s⟩
      | .ok u =>
        let p := lib.ToLower u.Path
        if suffixMatch p then
          match resolve u outbase s with
          | (.error _, s1) => (walk_attrs lib resolve outbase rest s1).push attr
          | (.ok fixed_val, s1) =>
            (walk_attrs lib resolve outbase rest s1).push { attr with Val := fixed_val }
        else (walk_attrs lib resolve outbase rest s).push attr
    else (walk_attrs lib resolve outbase rest s).push attr

/-- The loop `for c != nil` of `walk_doc`, started at `c`.  The recursive call
`walk_doc(c, outbase, out_dir)` is this loop started at `c.FirstChild`. -/
def walk_loop (lib : Lib) (resolve : Resolver σ) (outbase out_dir : Str) :
    Node → σ → WalkResult σ
  | .nil, s => ⟨none, .nil, s⟩
  | .mk ty data ns attr fc nx, s =>
    if ty ≠ .ElementNode then
      let r := walk_loop lib resolve outbase out_dir nx s
      ⟨r.err, .mk ty data ns attr fc r.node, r.state⟩
    else
      let ra := walk_attrs lib resolve outbase attr s
      match ra.err with
      | some e => ⟨some e, .mk ty data ns ra.attrs fc nx, ra.state⟩
      | none =>
        -- Recurse down
        let rc := walk_loop lib resolve outbase out_dir fc ra.state
        match rc.err with
        | some e => ⟨some e, .mk ty data ns ra.attrs rc.node nx, rc.state⟩
        | none =>
          let rn := walk_loop lib resolve outbase out_dir nx rc.state
          ⟨rn.err, .mk ty data ns ra.attrs rc.node rn.node, rn.state⟩

/-- The function `walk_doc` of `main.go`.  A nil `node` is a nil pointer dereference
(`none`). -/
def walk_doc (lib : Lib) (resolve : Resolver σ) (node : Node)
    (outbase out_dir : Str) (s : σ) : Option (WalkResult σ) :=
  match node with
  | .nil => none
  | .mk ty data ns attr fc nx =>
    let r := walk_loop lib resolve outbase out_dir fc s
    some ⟨r.err, .mk ty data ns attr r.node nx, r.state⟩

/-! ## The mirror driver -/

/-- The callback `walk_fpath(inbase, outbase)` of `main.go`, applied to the path `s`, to
whether the entry is a directory and to the error of the walk.  `getwd` is the answer of
`os.Getwd` and `walk_file` stands for the document pipeline, of which only the arguments
it is given matter here. -/
def walk_fpath (getwd : Except Err Str) (walk_file : Str → Str → Str → Str → Option Err)
    (inbase outbase : Str) (s : Str) (isDir : Bool) (err : Option Err) : Option Err :=
  match err with
  | some e => some e
  | none =>
    if !isDir then
      if !HasSuffix s ".html".toList then none
      else
        match Abs getwd inbase with
        | .error e => some e
        | .ok base0 =>
          let base := base0 ++ "/".toList
          match Abs getwd s with
          | .error e => some e
          | .ok sabs =>
            let out_dir := outbase ++ TrimPrefix (Dir sabs ++ "/".toList) base
            let out_fpath := out_dir ++ Base s
            match walk_file s outbase (Clean out_dir) out_fpath with
            | some e => some (.cannotWalk s e)
            | none => none
    else none

/-! ## Vocabulary of the specification -/

/-- The local file of a URL: `outputBase + "extern/" + host + normalize(path)`. -/
def localPath (outbase : Str) (u : URL) : Str :=
  outbase ++ "extern/".toList ++ u.Host ++ Clean u.Path

/-- The root-relative path of a URL: `"/extern/" + host + normalize(path)`. -/
def rootRelative (u : URL) : Str :=
  "/extern/".toList ++ u.Host ++ Clean u.Path

/-- The segments of a path: the pieces between separators. -/
def segments : Str → List Str
  | [] => [[]]
  | c :: s =>
    if c = '/' then [] :: segments s
    else
      match segments s with
      | seg :: more => (c :: seg) :: more
      | [] => [[c]]

/-- The path has a parent-directory segment. -/
def hasParentSegment (p : Str) : Bool := (segments p).contains "..".toList

/-- The key is `src` or `href` ignoring case: it is one of them once lower-cased by
`strings.ToLower`. -/
def isRef (lib : Lib) (a : Attribute) : Bool :=
  lib.ToLower a.Key = "src".toList ∨ lib.ToLower a.Key = "href".toList

/-- The media suffixes of the specification. -/
def mediaSuffixes : List Str :=
  [".jpeg".toList, ".jpg".toList, ".png".toList, ".tif".toList, ".tiff".toList,
   ".hiec".toList, ".mp4".toList, ".avif".toList, ".mpeg".toList, ".mpg".toList,
   ".mp3".toList, ".gif".toList]

/-- The URL of a candidate attribute: the key is `src` or `href` ignoring case, the value
parses, and the lower-cased path of the URL ends with a media suffix. -/
def candidateURL (lib : Lib) (a : Attribute) : Option URL :=
  if isRef lib a then
    match lib.Parse a.Val with
    | .ok u =>
      if mediaSuffixes.any (fun suf => HasSuffix (lib.ToLower u.Path) suf) then some u
      else none
    | .error _ => none
  else none

/-- The parse error of an attribute: the key is `src` or `href` ignoring case and the
value does not parse. -/
def parseError (lib : Lib) (a : Attribute) : Option Err :=
  if isRef lib a then
    match lib.Parse a.Val with
    | .ok _ => none
    | .error e => some e
  else none

/-- The attribute after its resolution: on success the value is the path returned, on
failure the attribute is as it was. -/
def rewritten (a : Attribute) (outcome : Except Err Str) : Attribute :=
  match outcome with
  | .ok v => { a with Val := v }
  | .error _ => a

/-- The candidate URLs of a list of attributes, in order. -/
def candidateURLs (lib : Lib) (as : List Attribute) : List URL :=
  as.filterMap (candidateURL lib)

/-- The attributes of the elements the walk inspects, in document order, from a node
and its later siblings on: an element contributes its attributes, then those below it;
a node of another type contributes nothing and is not entered. -/
def inspectedFrom : Node → List Attribute
  | .nil => []
  | .mk ty _ _ attr fc nx =>
    if ty = .ElementNode then attr ++ inspectedFrom fc ++ inspectedFrom nx
    else inspectedFrom nx

/-- The attributes of the elements `walk_doc` inspects below `node`, in document order. -/
def inspected : Node → List Attribute
  | .nil => []
  | .mk _ _ _ _ fc _ => inspectedFrom fc

/-- The attributes of all the elements among a node, its later siblings and everything
below them, in depth-first pre-order. -/
def elementAttrsFrom : Node → List Attribute
  | .nil => []
  | .mk ty _ _ attr fc nx =>
    (if ty = .ElementNode then attr else []) ++ elementAttrsFrom fc ++ elementAttrsFrom nx

/-- The attributes of all the elements of the tree rooted at `node`, in depth-first
pre-order. -/
def elementAttrs : Node → List Attribute
  | .nil => []
  | .mk ty _ _ attr fc _ => (if ty = .ElementNode then attr else []) ++ elementAttrsFrom fc

/-- Only elements have children, from a node and its later siblings on. -/
def onlyElementsNest : Node → Bool
  | .nil => true
  | .mk ty _ _ _ fc nx =>
    (ty = .ElementNode || fc = .nil) && onlyElementsNest fc && onlyElementsNest nx

/-- The first parse error among attributes, in order. -/
def firstParseError (lib : Lib) (as : List Attribute) : Option Err :=
  as.findSome? (parseError lib)

/-- The attributes before the first one that does not parse. -/
def beforeError (lib : Lib) (as : List Attribute) : List Attribute :=
  as.takeWhile (fun a => (parseError lib a).isNone)

/-- The attributes from the first one that does not parse on. -/
def fromError (lib : Lib) (as : List Attribute) : List Attribute :=
  as.dropWhile (fun a => (parseError lib a).isNone)

/-- The state after resolving a list of URLs one after the other. -/
def resolveAll (resolve : Resolver σ) (outbase : Str) : List URL → σ → σ
  | [], s => s
  | u :: us, s => resolveAll resolve outbase us (resolve u outbase s).2

/-- A resolver that also records the URLs it is called on. -/
def logged (resolve : Resolver σ) : Resolver (σ × List URL) :=
  fun u outbase s => ((resolve u outbase s.1).1, ((resolve u outbase s.1).2, s.2 ++ [u]))

/-- The sequence of resolver invocations of `walk_doc`: the URLs recorded by the run with
the recording resolver. -/
def resolverCalls (lib : Lib) (resolve : Resolver σ) (node : Node)
    (outbase out_dir : Str) (s : σ) : List URL :=
  match walk_doc lib (logged resolve) node outbase out_dir (s, []) with
  | some r => r.state.2
  | none => []

/-- Two attributes differ at most in the value, and only if the first is a candidate. -/
def attrFrame (lib : Lib) (a b : Attribute) : Bool :=
  a.Namespace = b.Namespace ∧ a.Key = b.Key ∧ ((candidateURL lib a).isSome ∨ a.Val = b.Val)

/-- Two attribute lists have the same length and agree up to values of candidates. -/
def attrsFrame (lib : Lib) : List Attribute → List Attribute → Bool
  | [], [] => true
  | a :: as, b :: bs => attrFrame lib a b && attrsFrame lib as bs
  | _, _ => false

/-- Two trees have the same nodes in the same places, with the same types, data and
namespaces, and attributes that agree up to values of candidates. -/
def sameFrame (lib : Lib) : Node → Node → Bool
  | .nil, .nil => true
  | .mk ty d ns attr fc nx, .mk ty1 d1 ns1 attr1 fc1 nx1 =>
    ty = ty1 && d = d1 && ns = ns1 && attrsFrame lib attr attr1 &&
      sameFrame lib fc fc1 && sameFrame lib nx nx1
  | _, _ => false

/-! ## Sample worlds and inputs -/

/-- A small world.  A file exists if it is listed in `present` or if an earlier call
renamed a file onto it; directories and temporary files can always be created; `http.Get`
answers `get u`; the body delivers `copied` bytes; closing and renaming succeed. -/
def world (present : List Str) (get : URL → Except Err Response) (copied : Int) : Env where
  stat := fun t name =>
    present.contains name ||
      t.any (fun c => match c with
        | .rename _ newpath => newpath == name
        | _ => false)
  mkdirAll := fun _ _ => none
  createTemp := fun _ dir pattern => .ok (dir ++ pattern ++ "1".toList)
  httpGet := fun _ u => get u
  copy := fun _ _ => (copied, none)
  close := fun _ _ => none
  rename := fun _ _ _ => none

/-- The URL `https://example.com/a/b.png`. -/
def exampleURL : URL := ⟨"https".toList, "example.com".toList, "/a/b.png".toList, []⟩

/-- The URL `http://example.com/a/./b.png`. -/
def exampleDotURL : URL := ⟨"http".toList, "example.com".toList, "/a/./b.png".toList, []⟩

/-- A server answering `200 OK` with the given declared content length. -/
def serveOK (len : Int) : URL → Except Err Response :=
  fun _ => .ok ⟨"200 OK".toList, 200, len⟩

/-- The world of `world`, except that closing the temporary file fails. -/
def worldCloseFails (get : URL → Except Err Response) (copied : Int) : Env :=
  { world [] get copied with close := fun _ _ => some (.sys "close".toList) }

/-- A stand-in for `url.Parse` in the examples.  It agrees with `url.Parse` on the values
used there: an `http` or `https` URL without user, port, query or fragment; a relative
path of letters, digits, dots and slashes; and a value with the invalid escape `%zz`. -/
def sampleParse (v : Str) : Except Err URL :=
  if Contains v "%zz".toList then .error (.sys "invalid URL escape".toList)
  else if HasPrefix v "https://".toList then
    .ok ⟨"https".toList, (v.drop 8).takeWhile (fun x => x ≠ '/'),
      (v.drop 8).dropWhile (fun x => x ≠ '/'), []⟩
  else if HasPrefix v "http://".toList then
    .ok ⟨"http".toList, (v.drop 7).takeWhile (fun x => x ≠ '/'),
      (v.drop 7).dropWhile (fun x => x ≠ '/'), []⟩
  else .ok ⟨[], [], v, []⟩

/-- A stand-in for `strings.ToLower` in the examples.  It agrees with `strings.ToLower` on
text made of ASCII characters, of U+0130 (capital I with dot above, folded to `i`) and of
U+212A (the Kelvin sign, folded to `k`). -/
def sampleToLower (s : Str) : Str :=
  s.map (fun c =>
    if c.toNat = 0x130 then 'i' else if c.toNat = 0x212A then 'k' else c.toLower)

/-- The library of the examples. -/
def sampleLib : Lib := ⟨sampleToLower, sampleParse⟩

/-- An element node. -/
def element (tag : String) (attr : List Attribute) (FirstChild NextSibling : Node) : Node :=
  .mk .ElementNode tag.toList [] attr FirstChild NextSibling

/-- An attribute without namespace. -/
def mkAttr (key val : String) : Attribute := ⟨[], key.toList, val.toList⟩

/-- A server that does not have `/missing.png` and serves everything else, without
declaring a content length. -/
def serveButMissing : URL → Except Err Response :=
  fun u =>
    if u.Path = "/missing.png".toList then .ok ⟨"404 Not Found".toList, 404, -1⟩
    else .ok ⟨"200 OK".toList, 200, -1⟩

/-- The children of the sample document:
a `div` with `src="https://example.com/missing.png"` and
`href="https://example.com/a/b.png"`, holding an `img` with
`src="https://example.com/c.jpg"`; then a text; then an `a` with `href="page.html"`; then
an `a` with `HREF="https://example.com/d.GIF"`. -/
def sampleBody : Node :=
  element "div"
    [mkAttr "src" "https://example.com/missing.png",
     mkAttr "href" "https://example.com/a/b.png"]
    (element "img" [mkAttr "src" "https://example.com/c.jpg"] .nil .nil)
    (.mk .TextNode "hello".toList [] [] .nil
      (element "a" [mkAttr "href" "page.html"] .nil
        (element "a" [mkAttr "HREF" "https://example.com/d.GIF"] .nil .nil)))

/-- The sample document after the walk. -/
def sampleBodyAfter : Node :=
  element "div"
    [mkAttr "src" "https://example.com/missing.png",
     mkAttr "href" "/extern/example.com/a/b.png"]
    (element "img" [mkAttr "src" "/extern/example.com/c.jpg"] .nil .nil)
    (.mk .TextNode "hello".toList [] [] .nil
      (element "a" [mkAttr "href" "page.html"] .nil
        (element "a" [mkAttr "HREF" "/extern/example.com/d.GIF"] .nil .nil)))

/-- The children of a document with an unparsable reference between two images. -/
def brokenBody : Node :=
  element "img" [mkAttr "src" "https://example.com/a/b.png"] .nil
    (element "a" [mkAttr "href" "%zz", mkAttr "src" "https://example.com/c.jpg"]
      (element "img" [mkAttr "src" "https://example.com/d.gif"] .nil .nil)
      (element "img" [mkAttr "src" "https://example.com/e.gif"] .nil .nil))

/-- The broken document after the walk: only the image before the unparsable reference
is rewritten. -/
def brokenBodyAfter : Node :=
  element "img" [mkAttr "src" "/extern/example.com/a/b.png"] .nil
    (element "a" [mkAttr "href" "%zz", mkAttr "src" "https://example.com/c.jpg"]
      (element "img" [mkAttr "src" "https://example.com/d.gif"] .nil .nil)
      (element "img" [mkAttr "src" "https://example.com/e.gif"] .nil .nil))

/-- An image below a text node. -/
def imageBelowText : Node :=
  .mk .TextNode "x".toList [] []
    (element "img" [mkAttr "src" "https://example.com/a/b.png"] .nil .nil) .nil

/-- The children of a document with one image whose suffix is upper case, with a dotted
capital I: `src="https://example.com/a.GİF"`. -/
def dottedBody : Node := element "img" [mkAttr "src" "https://example.com/a.GİF"] .nil .nil

/-- The same document after the walk. -/
def dottedBodyAfter : Node := element "img" [mkAttr "src" "/extern/example.com/a.GİF"] .nil .nil

/-- The URL `http://h/../../etc/passwd` of the specification. -/
def passwdURL : URL := ⟨"http".toList, "h".toList, "/../../etc/passwd".toList, []⟩

/-- The children of a document with one image, `src="../a.png"`. -/
def parentBody : Node := element "img" [mkAttr "src" "../a.png"] .nil .nil

/-! # Properties -/

set_option maxRecDepth 100000

/-! ### `filepath.Clean` never runs out of fuel -/

theorem length_dropWhile_le (p : Char → Bool) (l : Str) : (l.dropWhile p).length ≤ l.length :=
  (List.dropWhile_suffix p).length_le

/-- With at least `len(rest)` turns the loop of `filepath.Clean` reaches the end of the
path: more fuel does not change the result. -/
theorem cleanLoop_fuel (rooted : Bool) (f1 : Nat) : ∀ (f2 : Nat) (rest out : Str) (dotdot : Nat),
    rest.length ≤ f1 → rest.length ≤ f2 →
    cleanLoop rooted f1 rest out dotdot = cleanLoop rooted f2 rest out dotdot := by
  induction f1 with
  | zero =>
    intro f2 rest out dotdot h1 _
    have : rest = [] := List.length_eq_zero.mp (Nat.le_zero.mp h1)
    subst this
    cases f2 <;> simp [cleanLoop]
  | succ f1 ih =>
    intro f2 rest out dotdot h1 h2
    cases rest with
    | nil => cases f2 <;> simp [cleanLoop]
    | cons c tl =>
      cases f2 with
      | zero => simp at h2
      | succ f2 =>
        simp only [List.length_cons, Nat.add_le_add_iff_right] at h1 h2
        have ht : tl.tail.length ≤ tl.length := by simp
        simp only [cleanLoop]
        split
        · exact ih _ _ _ _ h1 h2
        · split
          · exact ih _ _ _ _ h1 h2
          · split
            · split
              · exact ih _ _ _ _ (le_trans ht h1) (le_trans ht h2)
              · split
                · exact ih _ _ _ _ (le_trans ht h1) (le_trans ht h2)
                · exact ih _ _ _ _ (le_trans ht h1) (le_trans ht h2)
            · rename_i hc _ _
              have hd : ((c :: tl).dropWhile (fun x => x ≠ '/')).length ≤ tl.length := by
                have : (c :: tl).dropWhile (fun x => decide (x ≠ '/'))
                    = tl.dropWhile (fun x => decide (x ≠ '/')) := by
                  simp [List.dropWhile, hc]
                rw [this]
                exact length_dropWhile_le _ _
              exact ih _ _ _ _ (le_trans hd h1) (le_trans hd h2)

theorem TrimPrefix_append (pre x : Str) : TrimPrefix (pre ++ x) pre = x := by
  have h : HasPrefix (pre ++ x) pre = true := by
    simp [HasPrefix]
  simp [TrimPrefix, h]

theorem relative_path_eq (outbase : Str) (u : URL) :
    "/".toList ++ TrimPrefix (outbase ++ "extern/".toList ++ u.Host ++ Clean u.Path) outbase
      = rootRelative u := by
  have h : outbase ++ "extern/".toList ++ u.Host ++ Clean u.Path
      = outbase ++ ("extern/".toList ++ u.Host ++ Clean u.Path) := by
    simp [List.append_assoc]
  rw [h, TrimPrefix_append]
  simp [rootRelative]

/-- A successful `download_to` issued exactly the calls of a complete download, the rename
being onto `fpath`. -/
theorem download_to_ok_trace (env : Env) (u : URL) (outbase fpath : Str) (t : List Call)
    (h : (download_to env u outbase fpath t).1 = none) :
    ∃ name, (download_to env u outbase fpath t).2 =
      t ++ [.createTemp outbase "download_tmp_".toList, .httpGet u, .copy name, .close name,
        .rename name fpath, .closeBody, .close name, .remove name] := by
  cases hT : env.createTemp t outbase "download_tmp_".toList with
  | error e => simp only [download_to, hT] at h; simp at h
  | ok name =>
    refine ⟨name, ?_⟩
    cases hG : env.httpGet (t ++ [.createTemp outbase "download_tmp_".toList]) u with
    | error e => simp only [download_to, hT, hG] at h; simp at h
    | ok resp =>
      by_cases hS : resp.StatusCode ≠ StatusOK
      · simp only [download_to, hT, hG, if_pos hS] at h; simp at h
      · rcases hC : env.copy (t ++ [.createTemp outbase "download_tmp_".toList] ++ [.httpGet u]) name
          with ⟨n, _ | e⟩
        · cases hF : env.close (t ++ [.createTemp outbase "download_tmp_".toList] ++ [.httpGet u]
              ++ [.copy name]) name with
          | some e => simp only [download_to, hT, hG, if_neg hS, hC, hF] at h; simp at h
          | none =>
            by_cases hL : n ≠ resp.ContentLength ∧ resp.ContentLength ≠ -1
            · simp only [download_to, hT, hG, if_neg hS, hC, hF, if_pos hL] at h; simp at h
            · cases hR : env.rename (t ++ [.createTemp outbase "download_tmp_".toList]
                ++ [.httpGet u] ++ [.copy name] ++ [.close name]) name fpath with
              | some e => simp only [download_to, hT, hG, if_neg hS, hC, hF, if_neg hL, hR] at h; simp at h
              | none => simp only [download_to, hT, hG, if_neg hS, hC, hF, if_neg hL, hR]; simp
        · simp only [download_to, hT, hG, if_neg hS, hC] at h; simp at h

theorem download_ok_value (env : Env) (u : URL) (outbase : Str) (t : List Call) (v : Str)
    (h : (download env u outbase t).1 = .ok v) : v = rootRelative u := by
  unfold download at h
  simp only [relative_path_eq] at h
  split at h
  · simp at h
  · split at h
    · simpa using h.symm
    · split at h
      · simp at h
      · split at h
        · simp at h
        · simpa using h.symm

/-- C1: for every output base and URL whose cleaned path has no `..`, whenever `download`
succeeds the value it returns is `"/extern/" + host + Clean(path)`, and the file it stats
is `outbase + "extern/" + host + Clean(path)`: either that file is there and nothing else
is done, or it is not and the calls that follow are those of a complete download whose
rename puts the temporary file at that same path. -/
theorem download_success_paths (env : Env) (u : URL) (outbase : Str) (t : List Call) (v : Str)
    (hclean : Contains (Clean u.Path) "..".toList = false)
    (hok : (download env u outbase t).1 = .ok v) :
    v = "/extern/".toList ++ u.Host ++ Clean u.Path ∧
    ∃ rest, (download env u outbase t).2
        = t ++ Call.stat (outbase ++ "extern/".toList ++ u.Host ++ Clean u.Path) :: rest ∧
      ((env.stat t (outbase ++ "extern/".toList ++ u.Host ++ Clean u.Path) = true ∧ rest = []) ∨
       (env.stat t (outbase ++ "extern/".toList ++ u.Host ++ Clean u.Path) = false ∧
        ∃ name, rest = [.mkdirAll (Dir (outbase ++ "extern/".toList ++ u.Host ++ Clean u.Path)),
          .createTemp outbase "download_tmp_".toList, .httpGet u, .copy name, .close name,
          .rename name (outbase ++ "extern/".toList ++ u.Host ++ Clean u.Path),
          .closeBody, .close name, .remove name, .sleep])) := by
  refine ⟨download_ok_value env u outbase t v hok, ?_⟩
  cases hst : env.stat t (outbase ++ "extern/".toList ++ u.Host ++ Clean u.Path) with
  | true =>
    refine ⟨[], ?_, Or.inl ⟨rfl, rfl⟩⟩
    simp only [download, hclean, hst]
    simp
  | false =>
    cases hmk : env.mkdirAll (t ++ [.stat (outbase ++ "extern/".toList ++ u.Host ++ Clean u.Path)])
        (Dir (outbase ++ "extern/".toList ++ u.Host ++ Clean u.Path)) with
    | some e => simp only [download, hclean, hst, hmk] at hok; simp at hok
    | none =>
      cases hdl : (download_to env u outbase (outbase ++ "extern/".toList ++ u.Host ++ Clean u.Path)
          (t ++ [.stat (outbase ++ "extern/".toList ++ u.Host ++ Clean u.Path)]
            ++ [.mkdirAll (Dir (outbase ++ "extern/".toList ++ u.Host ++ Clean u.Path))])) with
      | mk e t3 =>
        cases e with
        | some e => simp only [download, hclean, hst, hmk, hdl] at hok; simp at hok
        | none =>
          obtain ⟨name, hname⟩ := download_to_ok_trace env u outbase _ _ (by rw [hdl])
          rw [hdl] at hname
          simp only at hname
          refine ⟨_, ?_, Or.inr ⟨rfl, name, rfl⟩⟩
          simp only [download, hclean, hst, hmk, hdl, hname]
          simp

theorem download_success_paths_witness :
    Contains (Clean exampleURL.Path) "..".toList = false ∧
    (download (world [] (serveOK 100) 100) exampleURL "out/".toList []).1
      = .ok "/extern/example.com/a/b.png".toList ∧
    ("/extern/example.com/a/b.png".toList
        = "/extern/".toList ++ exampleURL.Host ++ Clean exampleURL.Path ∧
      ∃ rest, (download (world [] (serveOK 100) 100) exampleURL "out/".toList []).2
          = [] ++ Call.stat ("out/".toList ++ "extern/".toList ++ exampleURL.Host
              ++ Clean exampleURL.Path) :: rest ∧
        (((world [] (serveOK 100) 100).stat [] ("out/".toList ++ "extern/".toList
            ++ exampleURL.Host ++ Clean exampleURL.Path) = true ∧ rest = []) ∨
         ((world [] (serveOK 100) 100).stat [] ("out/".toList ++ "extern/".toList
            ++ exampleURL.Host ++ Clean exampleURL.Path) = false ∧
          ∃ name, rest = [.mkdirAll (Dir ("out/".toList ++ "extern/".toList ++ exampleURL.Host
              ++ Clean exampleURL.Path)),
            .createTemp "out/".toList "download_tmp_".toList, .httpGet exampleURL, .copy name,
            .close name,
            .rename name ("out/".toList ++ "extern/".toList ++ exampleURL.Host
              ++ Clean exampleURL.Path),
            .closeBody, .close name, .remove name, .sleep]))) :=
  ⟨by decide, by decide,
    download_success_paths (world [] (serveOK 100) 100) exampleURL "out/".toList []
      "/extern/example.com/a/b.png".toList (by decide) (by decide)⟩

/-- The example of the specification: `out/extern/example.com/a/b.png` is the file and
`/extern/example.com/a/b.png` the value, on the first run and on the second. -/
theorem download_example :
    download (world [] (serveOK 100) 100) exampleURL "out/".toList []
      = (.ok "/extern/example.com/a/b.png".toList,
         [.stat "out/extern/example.com/a/b.png".toList,
          .mkdirAll "out/extern/example.com/a".toList,
          .createTemp "out/".toList "download_tmp_".toList,
          .httpGet exampleURL,
          .copy "out/download_tmp_1".toList,
          .close "out/download_tmp_1".toList,
          .rename "out/download_tmp_1".toList "out/extern/example.com/a/b.png".toList,
          .closeBody,
          .close "out/download_tmp_1".toList,
          .remove "out/download_tmp_1".toList,
          .sleep]) ∧
    download (world ["out/extern/example.com/a/b.png".toList] (serveOK 100) 100) exampleURL
        "out/".toList []
      = (.ok "/extern/example.com/a/b.png".toList,
         [.stat "out/extern/example.com/a/b.png".toList]) := by
  decide

/-- C7: for every URL whose cleaned path has no `..`, if `os.Stat` finds something at
the local path then `download` returns the root-relative path and the only call it issues
is that `os.Stat`; and every successful `download` of the same URL, in any world, returns
that same value. -/
theorem download_cached (env : Env) (u : URL) (outbase : Str) (t : List Call)
    (hclean : Contains (Clean u.Path) "..".toList = false)
    (hexists : env.stat t (localPath outbase u) = true) :
    download env u outbase t = (.ok (rootRelative u), t ++ [.stat (localPath outbase u)]) ∧
    ∀ (env1 : Env) (t1 : List Call) (v : Str),
      (download env1 u outbase t1).1 = .ok v → v = rootRelative u := by
  refine ⟨?_, fun env1 t1 v h => download_ok_value env1 u outbase t1 v h⟩
  unfold localPath at hexists
  simp only [download, hclean, hexists, relative_path_eq, localPath]
  simp

theorem download_cached_witness :
    Contains (Clean exampleURL.Path) "..".toList = false ∧
    (world ["out/extern/example.com/a/b.png".toList] (serveOK 100) 100).stat []
      (localPath "out/".toList exampleURL) = true ∧
    (download (world ["out/extern/example.com/a/b.png".toList] (serveOK 100) 100) exampleURL
        "out/".toList []
      = (.ok (rootRelative exampleURL), [] ++ [.stat (localPath "out/".toList exampleURL)]) ∧
     ∀ (env1 : Env) (t1 : List Call) (v : Str),
      (download env1 exampleURL "out/".toList t1).1 = .ok v → v = rootRelative exampleURL) :=
  ⟨by decide, by decide,
    download_cached (world ["out/extern/example.com/a/b.png".toList] (serveOK 100) 100)
      exampleURL "out/".toList [] (by decide) (by decide)⟩

/-- C8 (amended): for every response with status OK.  If the declared content length is
not -1 and differs from the number of bytes copied, `download_to` returns an error, issues
no rename and removes the temporary file.  If the copy succeeds, closing the temporary
file succeeds, and the content length is -1 or equals the number of bytes copied, then
`download_to` renames the temporary file to the final path and returns what the rename
returns. -/
theorem download_to_content_length (env : Env) (u : URL) (outbase fpath : Str) (t : List Call)
    (name : Str) (resp : Response)
    (hT : env.createTemp t outbase "download_tmp_".toList = .ok name)
    (hG : env.httpGet (t ++ [.createTemp outbase "download_tmp_".toList]) u = .ok resp)
    (hS : resp.StatusCode = StatusOK) :
    (resp.ContentLength ≠ -1 →
      (env.copy (t ++ [.createTemp outbase "download_tmp_".toList] ++ [.httpGet u]) name).1
        ≠ resp.ContentLength →
      ∃ e calls, download_to env u outbase fpath t = (some e, t ++ calls) ∧
        (∀ a b, Call.rename a b ∉ calls) ∧ Call.remove name ∈ calls) ∧
    ((env.copy (t ++ [.createTemp outbase "download_tmp_".toList] ++ [.httpGet u]) name).2 = none →
      env.close (t ++ [.createTemp outbase "download_tmp_".toList] ++ [.httpGet u]
        ++ [.copy name]) name = none →
      (resp.ContentLength = -1 ∨
        (env.copy (t ++ [.createTemp outbase "download_tmp_".toList] ++ [.httpGet u]) name).1
          = resp.ContentLength) →
      download_to env u outbase fpath t =
        (env.rename (t ++ [.createTemp outbase "download_tmp_".toList] ++ [.httpGet u]
            ++ [.copy name] ++ [.close name]) name fpath,
         t ++ [.createTemp outbase "download_tmp_".toList, .httpGet u, .copy name, .close name,
           .rename name fpath, .closeBody, .close name, .remove name])) := by
  have hS1 : ¬ (resp.StatusCode ≠ StatusOK) := fun h => h hS
  rcases hC : env.copy (t ++ [.createTemp outbase "download_tmp_".toList] ++ [.httpGet u]) name
    with ⟨n, ce⟩
  constructor
  · intro hL hN
    rw [hC] at hN
    cases ce with
    | some e =>
      refine ⟨e, [.createTemp outbase "download_tmp_".toList, .httpGet u, .copy name,
        .closeBody, .close name, .remove name], ?_, ?_, ?_⟩
      · simp only [download_to, hT, hG, if_neg hS1, hC]; simp
      · intro a b; simp
      · simp
    | none =>
      cases hF : env.close (t ++ [.createTemp outbase "download_tmp_".toList] ++ [.httpGet u]
          ++ [.copy name]) name with
      | some e =>
        refine ⟨e, [.createTemp outbase "download_tmp_".toList, .httpGet u, .copy name,
          .close name, .closeBody, .close name, .remove name], ?_, ?_, ?_⟩
        · simp only [download_to, hT, hG, if_neg hS1, hC, hF]; simp
        · intro a b; simp
        · simp
      | none =>
        refine ⟨.contentLengthMismatch n resp.ContentLength,
          [.createTemp outbase "download_tmp_".toList, .httpGet u, .copy name,
          .close name, .closeBody, .close name, .remove name], ?_, ?_, ?_⟩
        · simp only [download_to, hT, hG, if_neg hS1, hC, hF, if_pos (And.intro hN hL)]; simp
        · intro a b; simp
        · simp
  · intro hce hF hL
    rw [hC] at hce hL
    cases hce
    have hL1 : ¬ (n ≠ resp.ContentLength ∧ resp.ContentLength ≠ -1) := by
      rintro ⟨h1, h2⟩
      rcases hL with h | h
      · exact h2 h
      · exact h1 h
    cases hR : env.rename (t ++ [.createTemp outbase "download_tmp_".toList] ++ [.httpGet u]
        ++ [.copy name] ++ [.close name]) name fpath with
    | some e => simp only [download_to, hT, hG, if_neg hS1, hC, hF, if_neg hL1, hR]; simp
    | none => simp only [download_to, hT, hG, if_neg hS1, hC, hF, if_neg hL1, hR]; simp

theorem download_to_content_length_witness :
    (world [] (serveOK 100) 50).createTemp [] "out/".toList "download_tmp_".toList
      = .ok "out/download_tmp_1".toList ∧
    (world [] (serveOK 100) 50).httpGet
        ([] ++ [.createTemp "out/".toList "download_tmp_".toList]) exampleURL
      = .ok ⟨"200 OK".toList, 200, 100⟩ ∧
    (∃ e calls, download_to (world [] (serveOK 100) 50) exampleURL "out/".toList
        "out/extern/example.com/a/b.png".toList [] = (some e, [] ++ calls) ∧
      (∀ a b, Call.rename a b ∉ calls) ∧ Call.remove "out/download_tmp_1".toList ∈ calls) :=
  ⟨by decide, by decide,
    (download_to_content_length (world [] (serveOK 100) 50) exampleURL "out/".toList
      "out/extern/example.com/a/b.png".toList [] "out/download_tmp_1".toList
      ⟨"200 OK".toList, 200, 100⟩ (by decide) (by decide) (by decide)).1
      (by decide) (by decide)⟩

/-- The example of the specification: 100 bytes declared, 50 delivered. -/
theorem download_to_mismatch_example :
    download_to (world [] (serveOK 100) 50) exampleURL "out/".toList
        "out/extern/example.com/a/b.png".toList []
      = (some (.contentLengthMismatch 50 100),
         [.createTemp "out/".toList "download_tmp_".toList,
          .httpGet exampleURL,
          .copy "out/download_tmp_1".toList,
          .close "out/download_tmp_1".toList,
          .closeBody,
          .close "out/download_tmp_1".toList,
          .remove "out/download_tmp_1".toList]) := by
  decide

/-- C8 as stated fails: with status OK, a copy that succeeds and delivers the 100 bytes
declared, but a temporary file that fails to close, `download_to` returns the error of the
close and issues no rename. -/
theorem download_to_close_failure :
    (worldCloseFails (serveOK 100) 100).httpGet
        [.createTemp "out/".toList "download_tmp_".toList] exampleURL
      = .ok ⟨"200 OK".toList, StatusOK, 100⟩ ∧
    (worldCloseFails (serveOK 100) 100).copy
        [.createTemp "out/".toList "download_tmp_".toList, .httpGet exampleURL]
        "out/download_tmp_1".toList
      = (100, none) ∧
    download_to (worldCloseFails (serveOK 100) 100) exampleURL "out/".toList
        "out/extern/example.com/a/b.png".toList []
      = (some (.sys "close".toList),
         [.createTemp "out/".toList "download_tmp_".toList,
          .httpGet exampleURL,
          .copy "out/download_tmp_1".toList,
          .close "out/download_tmp_1".toList,
          .closeBody,
          .close "out/download_tmp_1".toList,
          .remove "out/download_tmp_1".toList]) := by
  decide

/-! ### Rejection of parent-directory segments -/

theorem Contains_nil (s : Str) : Contains s [] = true := by
  cases s <;> simp [Contains]

theorem Contains_append (front sub back : Str) : Contains (front ++ sub ++ back) sub = true := by
  induction front with
  | nil =>
    cases h : sub ++ back with
    | nil =>
      have : sub = [] := by
        cases sub with
        | nil => rfl
        | cons a l => simp at h
      simp [this, Contains_nil]
    | cons c s =>
      have hp : sub.isPrefixOf (c :: s) = true := by
        rw [← h]; simp
      simp only [List.nil_append, h, Contains, hp, Bool.true_or]
  | cons a front ih =>
    simp only [List.cons_append, Contains, Bool.or_eq_true]
    right
    simpa using ih

/-- The first segment is a prefix of the path. -/
theorem segments_head (s : Str) : ∃ hd tl back, segments s = hd :: tl ∧ s = hd ++ back := by
  induction s with
  | nil => exact ⟨[], [], [], rfl, rfl⟩
  | cons c s ih =>
    obtain ⟨hd, tl, back, h1, h2⟩ := ih
    by_cases hc : c = '/'
    · exact ⟨[], segments s, c :: s, by simp [segments, hc], rfl⟩
    · refine ⟨c :: hd, tl, back, ?_, ?_⟩
      · simp [segments, hc, h1]
      · simp [h2]

/-- Every segment is a piece of the path. -/
theorem segments_infix (s seg : Str) (h : seg ∈ segments s) :
    ∃ front back, s = front ++ seg ++ back := by
  induction s with
  | nil =>
    simp [segments] at h
    exact ⟨[], [], by simp [h]⟩
  | cons c s ih =>
    by_cases hc : c = '/'
    · simp only [segments, hc, if_true, List.mem_cons] at h
      rcases h with h | h
      · exact ⟨[], c :: s, by simp [h]⟩
      · obtain ⟨front, back, hs⟩ := ih h
        exact ⟨c :: front, back, by simp [hs]⟩
    · obtain ⟨hd, tl, back, h1, h2⟩ := segments_head s
      simp only [segments, hc, if_false, h1, List.mem_cons] at h
      rcases h with h | h
      · exact ⟨[], back, by simp [h, h2]⟩
      · have hmem : seg ∈ segments s := by rw [h1]; exact List.mem_cons_of_mem _ h
        obtain ⟨front, back1, hs⟩ := ih hmem
        exact ⟨c :: front, back1, by simp [hs]⟩

/-- A path with a parent-directory segment contains `..`. -/
theorem Contains_of_hasParentSegment (p : Str) (h : hasParentSegment p = true) :
    Contains p "..".toList = true := by
  have hm : "..".toList ∈ segments p := by
    simpa [hasParentSegment] using h
  obtain ⟨front, back, hs⟩ := segments_infix p _ hm
  rw [hs]
  exact Contains_append front _ back

/-- A rejected URL: `download` returns the invalid-URL error and issues no call. -/
theorem download_rejects (env : Env) (u : URL) (outbase : Str) (t : List Call)
    (h : Contains (Clean u.Path) "..".toList = true) :
    download env u outbase t = (.error (.invalidURL u), t) := by
  simp only [download, h, if_true]

theorem cleanBack_ge (buf : Str) (dotdot : Nat) (w : Nat) (h : dotdot ≤ w) :
    dotdot ≤ cleanBack buf dotdot w := by
  induction w with
  | zero => simpa [cleanBack] using h
  | succ w ih =>
    unfold cleanBack
    split
    · rename_i hc
      exact ih (by omega)
    · exact h

theorem head?_take_pos (l : Str) (k : Nat) (hk : 1 ≤ k) : (l.take k).head? = l.head? := by
  cases l with
  | nil => simp
  | cons a l =>
    cases k with
    | zero => omega
    | succ k => simp

theorem head?_append_of_head? (l m : Str) (c : Char) (h : l.head? = some c) :
    (l ++ m).head? = some c := by
  cases l with
  | nil => simp at h
  | cons a l => simpa using h

theorem cleanLoop_rooted_head (fuel : Nat) : ∀ (rest out : Str) (dotdot : Nat),
    out.head? = some '/' → 1 ≤ dotdot →
    (cleanLoop true fuel rest out dotdot).head? = some '/' := by
  induction fuel with
  | zero => intro rest out dotdot h _; simpa [cleanLoop] using h
  | succ fuel ih =>
    intro rest out dotdot h hd
    cases rest with
    | nil => simpa [cleanLoop] using h
    | cons c tl =>
      simp only [cleanLoop]
      split
      · exact ih _ _ _ h hd
      · split
        · exact ih _ _ _ h hd
        · split
          · split
            · rename_i hlen
              apply ih _ _ _ _ hd
              rw [head?_take_pos]
              · exact h
              · exact le_trans hd (cleanBack_ge _ _ _ (by omega))
            · simp only [Bool.not_true, Bool.false_eq_true, if_false]
              exact ih _ _ _ h hd
          · apply ih _ _ _ _ hd
            apply head?_append_of_head?
            split
            · exact head?_append_of_head? _ _ _ h
            · exact h

/-- The cleaned form of a rooted path is rooted. -/
theorem Clean_rooted (p : Str) (h : p.head? = some '/') : (Clean p).head? = some '/' := by
  have hne : p ≠ [] := by
    intro h0; simp [h0] at h
  have hl := cleanLoop_rooted_head p.length p.tail ['/'] 1 rfl (le_refl 1)
  unfold Clean
  simp only [hne, if_false, h, decide_True, if_true]
  split
  · rename_i h0
    rw [h0] at hl
    simp at hl
  · exact hl

/-- A host without separator followed by a rooted path splits in one way only. -/
theorem host_path_split (h1 h2 c1 c2 : Str) (hh1 : '/' ∉ h1) (hh2 : '/' ∉ h2)
    (hc1 : c1.head? = some '/') (hc2 : c2.head? = some '/') (heq : h1 ++ c1 = h2 ++ c2) :
    h1 = h2 ∧ c1 = c2 := by
  induction h1 generalizing h2 with
  | nil =>
    cases h2 with
    | nil => exact ⟨rfl, by simpa using heq⟩
    | cons b h2 =>
      exfalso
      cases c1 with
      | nil => simp at hc1
      | cons x c1 =>
        simp at hc1
        simp at heq
        apply hh2
        rw [← heq.1, hc1]
        simp
  | cons a h1 ih =>
    cases h2 with
    | nil =>
      exfalso
      cases c2 with
      | nil => simp at hc2
      | cons x c2 =>
        simp at hc2
        simp at heq
        apply hh1
        rw [heq.1, hc2]
        simp
    | cons b h2 =>
      simp only [List.cons_append, List.cons.injEq] at heq
      have := ih h2 (fun hm => hh1 (List.mem_cons_of_mem _ hm))
        (fun hm => hh2 (List.mem_cons_of_mem _ hm)) heq.2
      exact ⟨by rw [heq.1, this.1], this.2⟩

/-- C2 (amended): for every output base and every two URLs whose hosts hold no `/` and
whose paths begin with `/`, if the local paths `outbase + "extern/" + host + Clean(path)`
are equal then the hosts are equal and the cleaned paths are equal. -/
theorem localPath_injective (outbase : Str) (u1 u2 : URL)
    (hh1 : '/' ∉ u1.Host) (hh2 : '/' ∉ u2.Host)
    (hp1 : u1.Path.head? = some '/') (hp2 : u2.Path.head? = some '/')
    (heq : localPath outbase u1 = localPath outbase u2) :
    u1.Host = u2.Host ∧ Clean u1.Path = Clean u2.Path := by
  unfold localPath at heq
  simp only [List.append_assoc, List.append_cancel_left_eq] at heq
  exact host_path_split _ _ _ _ hh1 hh2 (Clean_rooted _ hp1) (Clean_rooted _ hp2) heq

theorem localPath_injective_witness :
    '/' ∉ exampleURL.Host ∧ exampleURL.Path.head? = some '/' ∧
    '/' ∉ exampleDotURL.Host ∧ exampleDotURL.Path.head? = some '/' ∧
    localPath "out/".toList exampleURL = localPath "out/".toList exampleDotURL ∧
    exampleURL.Host = exampleDotURL.Host ∧ Clean exampleURL.Path = Clean exampleDotURL.Path :=
  ⟨by decide, by decide, by decide, by decide, by decide,
    localPath_injective "out/".toList exampleURL exampleDotURL (by decide) (by decide)
      (by decide) (by decide) (by decide)⟩

/-- C2 as stated fails: `http://a/b.png` (host `a`, path `/b.png`) and the relative
reference `a/b.png` (no host, path `a/b.png`) both pass the check for `..`, differ in host
and in cleaned path, and have the same local path `out/extern/a/b.png`. -/
theorem localPath_collision :
    Contains (Clean "/b.png".toList) "..".toList = false ∧
    Contains (Clean "a/b.png".toList) "..".toList = false ∧
    localPath "out/".toList ⟨"http".toList, "a".toList, "/b.png".toList, []⟩
      = localPath "out/".toList ⟨[], [], "a/b.png".toList, []⟩ ∧
    "a".toList ≠ ([] : Str) ∧
    Clean "/b.png".toList ≠ Clean "a/b.png".toList := by
  decide

/-! ### The attribute loop -/

theorem foldl_flag (f : Str → Bool) (l : List Str) (b : Bool) :
    l.foldl (fun m suf => if f suf then true else m) b = (b || l.any f) := by
  induction l generalizing b with
  | nil => simp
  | cons x l ih =>
    simp only [List.foldl_cons, ih, List.any_cons]
    cases b <;> cases f x <;> simp

/-- The suffix loop of `walk_doc` decides membership in the media suffixes. -/
theorem suffixMatch_eq (p : Str) :
    suffixMatch p = mediaSuffixes.any (fun suf => HasSuffix p suf) := by
  unfold suffixMatch
  rw [foldl_flag (fun suf => HasSuffix p suf)]
  simp only [Bool.false_or]
  rw [Bool.eq_iff_iff]
  simp only [List.any_eq_true]
  have h1 : ∀ x ∈ suffixes, x ∈ mediaSuffixes := by decide
  have h2 : ∀ x ∈ mediaSuffixes, x ∈ suffixes := by decide
  constructor
  · rintro ⟨x, hx, hf⟩; exact ⟨x, h1 x hx, hf⟩
  · rintro ⟨x, hx, hf⟩; exact ⟨x, h2 x hx, hf⟩

/-- One turn of the attribute loop, in the vocabulary of the specification. -/
theorem walk_attrs_cons (lib : Lib) (resolve : Resolver σ) (outbase : Str)
    (a : Attribute) (rest : List Attribute) (s : σ) :
    walk_attrs lib resolve outbase (a :: rest) s =
      match parseError lib a with
      | some e => ⟨some e, a :: rest, s⟩
      | none =>
        match candidateURL lib a with
        | none => (walk_attrs lib resolve outbase rest s).push a
        | some u =>
          (walk_attrs lib resolve outbase rest (resolve u outbase s).2).push
            (rewritten a (resolve u outbase s).1) := by
  by_cases hk : lib.ToLower a.Key = "src".toList ∨ lib.ToLower a.Key = "href".toList
  · have hr : isRef lib a = true := by simp only [isRef]; exact decide_eq_true hk
    cases hp : lib.Parse a.Val with
    | error e =>
      simp only [walk_attrs, if_pos hk, hp, parseError, hr, if_true]
    | ok u =>
      by_cases hm : suffixMatch (lib.ToLower u.Path) = true
      · have hm1 := hm
        rw [suffixMatch_eq] at hm1
        rcases hres : resolve u outbase s with ⟨o, s1⟩
        cases o with
        | error e =>
          simp only [walk_attrs, if_pos hk, hp, parseError, candidateURL, hr, if_true, hm, hm1,
            hres, rewritten]
        | ok v =>
          simp only [walk_attrs, if_pos hk, hp, parseError, candidateURL, hr, if_true, hm, hm1,
            hres, rewritten]
      · have hm1 := hm
        rw [suffixMatch_eq] at hm1
        simp only [walk_attrs, if_pos hk, hp, parseError, candidateURL, hr, if_true, hm, hm1,
          if_false, Bool.false_eq_true]
  · have hr : isRef lib a = false := by simp only [isRef]; exact decide_eq_false hk
    simp only [walk_attrs, if_neg hk, parseError, candidateURL, hr, Bool.false_eq_true, if_false]

section AttrLoop

variable {σ : Type} (lib : Lib) (resolve : Resolver σ) (outbase : Str)

/-- The attribute loop on a concatenation: the loop on the first part, then, unless that
returned an error, the loop on the second part. -/
theorem walk_attrs_append (xs ys : List Attribute) (s : σ) :
    walk_attrs lib resolve outbase (xs ++ ys) s =
      match (walk_attrs lib resolve outbase xs s).err with
      | some e =>
        ⟨some e, (walk_attrs lib resolve outbase xs s).attrs ++ ys,
          (walk_attrs lib resolve outbase xs s).state⟩
      | none =>
        ⟨(walk_attrs lib resolve outbase ys (walk_attrs lib resolve outbase xs s).state).err,
          (walk_attrs lib resolve outbase xs s).attrs ++
            (walk_attrs lib resolve outbase ys (walk_attrs lib resolve outbase xs s).state).attrs,
          (walk_attrs lib resolve outbase ys
            (walk_attrs lib resolve outbase xs s).state).state⟩ := by
  induction xs generalizing s with
  | nil => simp [walk_attrs]
  | cons a xs ih =>
    rw [List.cons_append, walk_attrs_cons, walk_attrs_cons]
    cases hpe : parseError lib a with
    | some e => simp
    | none =>
      cases hc : candidateURL lib a with
      | none =>
        simp only [AttrResult.push, ih]
        cases (walk_attrs lib resolve outbase xs s).err <;> simp
      | some u =>
        simp only [AttrResult.push, ih]
        cases (walk_attrs lib resolve outbase xs (resolve u outbase s).2).err <;> simp

/-- The error of the attribute loop is the first parse error. -/
theorem walk_attrs_err (xs : List Attribute) (s : σ) :
    (walk_attrs lib resolve outbase xs s).err = firstParseError lib xs := by
  induction xs generalizing s with
  | nil => simp [walk_attrs, firstParseError]
  | cons a xs ih =>
    rw [walk_attrs_cons]
    cases hpe : parseError lib a with
    | some e => simp [firstParseError, List.findSome?, hpe]
    | none =>
      cases hc : candidateURL lib a with
      | none => simpa [firstParseError, List.findSome?, hpe, AttrResult.push] using ih s
      | some u => simpa [firstParseError, List.findSome?, hpe, AttrResult.push] using ih _

/-- The attribute loop resolves the candidates before the first parse error, in order,
and nothing else. -/
theorem walk_attrs_state (xs : List Attribute) (s : σ) :
    (walk_attrs lib resolve outbase xs s).state =
      resolveAll resolve outbase (candidateURLs lib (beforeError lib xs)) s := by
  induction xs generalizing s with
  | nil => simp [walk_attrs, beforeError, candidateURLs, resolveAll]
  | cons a xs ih =>
    rw [walk_attrs_cons]
    cases hpe : parseError lib a with
    | some e => simp [beforeError, List.takeWhile, hpe, candidateURLs, resolveAll]
    | none =>
      cases hc : candidateURL lib a with
      | none =>
        simp only [AttrResult.push, ih, beforeError, List.takeWhile, hpe, Option.isNone_none,
          candidateURLs, List.filterMap_cons, hc]
      | some u =>
        simp only [AttrResult.push, ih, beforeError, List.takeWhile, hpe, Option.isNone_none,
          candidateURLs, List.filterMap_cons, hc, resolveAll]

/-- The attribute loop leaves the attributes from the first parse error on as they were. -/
theorem walk_attrs_split (xs : List Attribute) (s : σ) :
    ∃ done, (walk_attrs lib resolve outbase xs s).attrs = done ++ fromError lib xs ∧
      done.length = (beforeError lib xs).length := by
  induction xs generalizing s with
  | nil => exact ⟨[], by simp [walk_attrs, fromError], by simp [beforeError]⟩
  | cons a xs ih =>
    rw [walk_attrs_cons]
    cases hpe : parseError lib a with
    | some e =>
      exact ⟨[], by simp [fromError, List.dropWhile, hpe], by simp [beforeError, List.takeWhile, hpe]⟩
    | none =>
      cases hc : candidateURL lib a with
      | none =>
        obtain ⟨done, h1, h2⟩ := ih s
        exact ⟨a :: done, by simp [AttrResult.push, h1, fromError, List.dropWhile, hpe],
          by simp [beforeError, List.takeWhile, hpe, h2]⟩
      | some u =>
        obtain ⟨done, h1, h2⟩ := ih (resolve u outbase s).2
        exact ⟨rewritten a (resolve u outbase s).1 :: done,
          by simp [AttrResult.push, h1, fromError, List.dropWhile, hpe],
          by simp [beforeError, List.takeWhile, hpe, h2]⟩

theorem walk_attrs_length (xs : List Attribute) (s : σ) :
    (walk_attrs lib resolve outbase xs s).attrs.length = xs.length := by
  induction xs generalizing s with
  | nil => simp [walk_attrs]
  | cons a xs ih =>
    rw [walk_attrs_cons]
    cases hpe : parseError lib a with
    | some e => simp
    | none =>
      cases hc : candidateURL lib a with
      | none => simp [AttrResult.push, ih]
      | some u => simp [AttrResult.push, ih]

/-- Every attribute the loop passes before the first parse error ends as the
specification says: a candidate holds the outcome of its resolution, in the state reached
by resolving the candidates before it; any other attribute is as it was. -/
theorem walk_attrs_get (xs : List Attribute) (s : σ) (i : Nat) (a : Attribute)
    (hi : i < (beforeError lib xs).length) (ha : xs.get? i = some a) :
    (walk_attrs lib resolve outbase xs s).attrs.get? i = some
      (match candidateURL lib a with
       | none => a
       | some u =>
         rewritten a (resolve u outbase
           (resolveAll resolve outbase (candidateURLs lib (xs.take i)) s)).1) := by
  induction xs generalizing s i with
  | nil => simp at ha
  | cons b xs ih =>
    rw [walk_attrs_cons]
    cases hpe : parseError lib b with
    | some e => simp [beforeError, List.takeWhile, hpe] at hi
    | none =>
      have hlen : (beforeError lib (b :: xs)).length = (beforeError lib xs).length + 1 := by
        simp [beforeError, List.takeWhile, hpe]
      cases i with
      | zero =>
        simp only [List.get?_cons_zero, Option.some.injEq] at ha
        subst ha
        cases hc : candidateURL lib b with
        | none => simp [AttrResult.push]
        | some u => simp [AttrResult.push, candidateURLs, resolveAll]
      | succ i =>
        simp only [List.get?_cons_succ] at ha
        have hi1 : i < (beforeError lib xs).length := by omega
        cases hc : candidateURL lib b with
        | none =>
          simp only [AttrResult.push, List.get?_cons_succ, ih s i hi1 ha, List.take_succ_cons,
            candidateURLs, List.filterMap_cons, hc]
        | some u =>
          simp only [AttrResult.push, List.get?_cons_succ, ih _ i hi1 ha, List.take_succ_cons,
            candidateURLs, List.filterMap_cons, hc, resolveAll]

/-- Every attribute is, after the loop, as it was, or it is a candidate and holds a path
its resolution returned. -/
theorem walk_attrs_keep (xs : List Attribute) (s : σ) (i : Nat) (a : Attribute)
    (ha : xs.get? i = some a) :
    (walk_attrs lib resolve outbase xs s).attrs.get? i = some a ∨
    ∃ u s1 v, candidateURL lib a = some u ∧ (resolve u outbase s1).1 = .ok v ∧
      (walk_attrs lib resolve outbase xs s).attrs.get? i = some { a with Val := v } := by
  induction xs generalizing s i with
  | nil => simp at ha
  | cons b xs ih =>
    rw [walk_attrs_cons]
    cases hpe : parseError lib b with
    | some e => left; simpa using ha
    | none =>
      cases i with
      | zero =>
        simp only [List.get?_cons_zero, Option.some.injEq] at ha
        subst ha
        cases hc : candidateURL lib b with
        | none => left; simp [AttrResult.push]
        | some u =>
          cases hres : (resolve u outbase s).1 with
          | error e => left; simp [AttrResult.push, rewritten, hres]
          | ok v =>
            right
            exact ⟨u, s, v, rfl, hres, by simp [AttrResult.push, rewritten, hres]⟩
      | succ i =>
        simp only [List.get?_cons_succ] at ha
        cases hc : candidateURL lib b with
        | none => simpa [AttrResult.push] using ih s i ha
        | some u => simpa [AttrResult.push] using ih _ i ha

theorem attrFrame_refl (a : Attribute) : attrFrame lib a a = true := by
  simp [attrFrame]

theorem attrsFrame_refl (xs : List Attribute) : attrsFrame lib xs xs = true := by
  induction xs with
  | nil => rfl
  | cons a xs ih => simp [attrsFrame, attrFrame_refl, ih]

theorem sameFrame_refl (n : Node) : sameFrame lib n n = true := by
  induction n with
  | nil => rfl
  | mk ty d ns attr fc nx ih1 ih2 => simp [sameFrame, attrsFrame_refl, ih1, ih2]

/-- The attribute loop changes nothing but values of candidates. -/
theorem walk_attrs_frame (xs : List Attribute) (s : σ) :
    attrsFrame lib xs (walk_attrs lib resolve outbase xs s).attrs = true := by
  induction xs generalizing s with
  | nil => simp [walk_attrs, attrsFrame]
  | cons a xs ih =>
    rw [walk_attrs_cons]
    cases hpe : parseError lib a with
    | some e => exact attrsFrame_refl lib _
    | none =>
      cases hc : candidateURL lib a with
      | none => simp [AttrResult.push, attrsFrame, attrFrame_refl, ih]
      | some u =>
        have : attrFrame lib a (rewritten a (resolve u outbase s).1) = true := by
          cases (resolve u outbase s).1 <;> simp [attrFrame, rewritten, hc]
        simp [AttrResult.push, attrsFrame, this, ih]

end AttrLoop

section TreeWalk

variable {σ : Type} (lib : Lib) (resolve : Resolver σ)
  (outbase out_dir : Str)

/-- The walk over a chain of siblings is the attribute loop over the attributes of the
inspected elements, laid out in document order. -/
theorem walk_loop_flat (c : Node) (s : σ) :
    walk_attrs lib resolve outbase (inspectedFrom c) s =
      ⟨(walk_loop lib resolve outbase out_dir c s).err,
       inspectedFrom (walk_loop lib resolve outbase out_dir c s).node,
       (walk_loop lib resolve outbase out_dir c s).state⟩ := by
  induction c generalizing s with
  | nil => simp [walk_loop, inspectedFrom, walk_attrs]
  | mk ty d ns attr fc nx ihc ihn =>
    by_cases hty : ty = .ElementNode
    · subst hty
      simp only [inspectedFrom, if_true, walk_loop, ne_eq, not_true_eq_false, if_false]
      rw [List.append_assoc, walk_attrs_append]
      cases ha : (walk_attrs lib resolve outbase attr s).err with
      | some e => simp [inspectedFrom]
      | none =>
        simp only []
        rw [walk_attrs_append, ihc]
        cases hc : (walk_loop lib resolve outbase out_dir fc
            (walk_attrs lib resolve outbase attr s).state).err with
        | some e => simp [inspectedFrom]
        | none =>
          simp only []
          rw [ihn]
          simp [inspectedFrom]
    · simp only [inspectedFrom, walk_loop, ne_eq, hty, not_false_eq_true, if_true, if_false]
      rw [ihn]

/-- The walk over a chain of siblings changes nothing but values of candidates. -/
theorem walk_loop_frame (c : Node) (s : σ) :
    sameFrame lib c (walk_loop lib resolve outbase out_dir c s).node = true := by
  induction c generalizing s with
  | nil => simp [walk_loop, sameFrame]
  | mk ty d ns attr fc nx ihc ihn =>
    by_cases hty : ty = .ElementNode
    · subst hty
      simp only [walk_loop, ne_eq, not_true_eq_false, if_false]
      cases ha : (walk_attrs lib resolve outbase attr s).err with
      | some e =>
        simp [sameFrame, walk_attrs_frame, sameFrame_refl]
      | none =>
        simp only []
        cases hc : (walk_loop lib resolve outbase out_dir fc
            (walk_attrs lib resolve outbase attr s).state).err with
        | some e => simp [sameFrame, walk_attrs_frame, sameFrame_refl, ihc]
        | none => simp [sameFrame, walk_attrs_frame, ihc, ihn]
    · simp [walk_loop, hty, sameFrame, attrsFrame_refl, sameFrame_refl, ihn]

/-- Recording the calls does not change the attribute loop. -/
theorem walk_attrs_logged (xs : List Attribute) (s : σ) (l : List URL) :
    ∃ l1, walk_attrs lib (logged resolve) outbase xs (s, l) =
      ⟨(walk_attrs lib resolve outbase xs s).err, (walk_attrs lib resolve outbase xs s).attrs,
        ((walk_attrs lib resolve outbase xs s).state, l1)⟩ := by
  induction xs generalizing s l with
  | nil => exact ⟨l, by simp [walk_attrs]⟩
  | cons a xs ih =>
    rw [walk_attrs_cons, walk_attrs_cons]
    cases hpe : parseError lib a with
    | some e => exact ⟨l, rfl⟩
    | none =>
      cases hc : candidateURL lib a with
      | none =>
        obtain ⟨l1, h⟩ := ih s l
        exact ⟨l1, by simp [AttrResult.push, h]⟩
      | some u =>
        obtain ⟨l1, h⟩ := ih (resolve u outbase s).2 (l ++ [u])
        exact ⟨l1, by simp [AttrResult.push, logged, h]⟩

/-- Recording the calls does not change the walk. -/
theorem walk_loop_logged (c : Node) (s : σ) (l : List URL) :
    ∃ l1, walk_loop lib (logged resolve) outbase out_dir c (s, l) =
      ⟨(walk_loop lib resolve outbase out_dir c s).err,
        (walk_loop lib resolve outbase out_dir c s).node,
        ((walk_loop lib resolve outbase out_dir c s).state, l1)⟩ := by
  induction c generalizing s l with
  | nil => exact ⟨l, by simp [walk_loop]⟩
  | mk ty d ns attr fc nx ihc ihn =>
    by_cases hty : ty = .ElementNode
    · subst hty
      obtain ⟨l1, h1⟩ := walk_attrs_logged lib resolve outbase attr s l
      simp only [walk_loop, ne_eq, not_true_eq_false, if_false, h1]
      cases ha : (walk_attrs lib resolve outbase attr s).err with
      | some e => exact ⟨l1, rfl⟩
      | none =>
        simp only []
        obtain ⟨l2, h2⟩ := ihc (walk_attrs lib resolve outbase attr s).state l1
        rw [h2]
        cases hc : (walk_loop lib resolve outbase out_dir fc
            (walk_attrs lib resolve outbase attr s).state).err with
        | some e => exact ⟨l2, rfl⟩
        | none =>
          simp only []
          obtain ⟨l3, h3⟩ := ihn (walk_loop lib resolve outbase out_dir fc
            (walk_attrs lib resolve outbase attr s).state).state l2
          rw [h3]
          exact ⟨l3, rfl⟩
    · obtain ⟨l1, h1⟩ := ihn s l
      exact ⟨l1, by simp [walk_loop, hty, h1]⟩

/-- The recording resolver records the URLs it is given, in order. -/
theorem resolveAll_logged (us : List URL) (s : σ) (l : List URL) :
    resolveAll (logged resolve) outbase us (s, l) = (resolveAll resolve outbase us s, l ++ us) := by
  induction us generalizing s l with
  | nil => simp [resolveAll]
  | cons u us ih => simp [resolveAll, logged, ih]

/-- Where only elements have children, the inspected elements are all the elements. -/
theorem inspectedFrom_eq_elementAttrsFrom (c : Node) (h : onlyElementsNest c = true) :
    inspectedFrom c = elementAttrsFrom c := by
  induction c with
  | nil => rfl
  | mk ty d ns attr fc nx ihc ihn =>
    simp only [onlyElementsNest, Bool.and_eq_true, Bool.or_eq_true, decide_eq_true_eq] at h
    obtain ⟨⟨h1, h2⟩, h3⟩ := h
    by_cases hty : ty = .ElementNode
    · simp [inspectedFrom, elementAttrsFrom, hty, ihc h2, ihn h3]
    · have hfc : fc = .nil := by
        rcases h1 with h1 | h1
        · exact absurd h1 hty
        · exact h1
      simp [inspectedFrom, elementAttrsFrom, hty, hfc, ihn h3]

end TreeWalk

section TreeClaims

variable {σ : Type} (lib : Lib) (resolve : Resolver σ)
  (outbase out_dir : Str)

theorem candidateURL_parse (a : Attribute) (u : URL) (h : candidateURL lib a = some u) :
    lib.Parse a.Val = .ok u := by
  unfold candidateURL at h
  split at h
  · split at h
    · rename_i u1 hp
      split at h
      · simp only [Option.some.injEq] at h
        rw [hp, h]
      · simp at h
    · simp at h
  · simp at h

theorem beforeError_eq_self (xs : List Attribute) (h : firstParseError lib xs = none) :
    beforeError lib xs = xs := by
  induction xs with
  | nil => rfl
  | cons a xs ih =>
    cases hpe : parseError lib a with
    | some e => simp [firstParseError, List.findSome?, hpe] at h
    | none =>
      have h1 : firstParseError lib xs = none := by
        simpa [firstParseError, List.findSome?, hpe] using h
      have := ih h1
      unfold beforeError at this ⊢
      simp [List.takeWhile, hpe, this]

theorem firstParseError_isSome (xs : List Attribute) :
    firstParseError lib xs ≠ none ↔
      ∃ a ∈ xs, isRef lib a = true ∧ ∃ e, lib.Parse a.Val = .error e := by
  induction xs with
  | nil => simp [firstParseError]
  | cons a xs ih =>
    cases hpe : parseError lib a with
    | some e =>
      have : isRef lib a = true ∧ ∃ e, lib.Parse a.Val = .error e := by
        unfold parseError at hpe
        split at hpe
        · rename_i hr
          split at hpe
          · simp at hpe
          · rename_i e1 hp
            exact ⟨hr, e1, hp⟩
        · simp at hpe
      simp only [firstParseError, List.findSome?, hpe, ne_eq, reduceCtorEq, not_false_eq_true,
        List.mem_cons, true_iff]
      exact ⟨a, Or.inl rfl, this⟩
    | none =>
      have hno : ¬ (isRef lib a = true ∧ ∃ e, lib.Parse a.Val = .error e) := by
        rintro ⟨hr, e, hp⟩
        simp [parseError, hr, hp] at hpe
      have h1 : firstParseError lib (a :: xs) = firstParseError lib xs := by
        simp [firstParseError, List.findSome?, hpe]
      rw [h1, ih]
      constructor
      · rintro ⟨b, hb, hbb⟩
        exact ⟨b, List.mem_cons_of_mem _ hb, hbb⟩
      · rintro ⟨b, hb, hbb⟩
        rcases List.mem_cons.mp hb with rfl | hb
        · exact absurd hbb hno
        · exact ⟨b, hb, hbb⟩

theorem walk_loop_err (c : Node) (s : σ) :
    (walk_loop lib resolve outbase out_dir c s).err = firstParseError lib (inspectedFrom c) := by
  have h := congrArg AttrResult.err (walk_loop_flat lib resolve outbase out_dir c s)
  rw [walk_attrs_err] at h
  exact h.symm

theorem walk_loop_state (c : Node) (s : σ) :
    (walk_loop lib resolve outbase out_dir c s).state =
      resolveAll resolve outbase (candidateURLs lib (beforeError lib (inspectedFrom c))) s := by
  have h := congrArg AttrResult.state (walk_loop_flat lib resolve outbase out_dir c s)
  rw [walk_attrs_state] at h
  exact h.symm

theorem walk_loop_attrs (c : Node) (s : σ) :
    inspectedFrom (walk_loop lib resolve outbase out_dir c s).node =
      (walk_attrs lib resolve outbase (inspectedFrom c) s).attrs := by
  have h := congrArg AttrResult.attrs (walk_loop_flat lib resolve outbase out_dir c s)
  exact h.symm

/-- The calls of a walk are the candidates before the first parse error, in document
order. -/
theorem resolverCalls_eq (ty : NodeType) (d ns : Str) (attr : List Attribute) (fc nx : Node)
    (s : σ) :
    resolverCalls lib resolve (.mk ty d ns attr fc nx) outbase out_dir s =
      candidateURLs lib (beforeError lib (inspected (.mk ty d ns attr fc nx))) := by
  simp only [resolverCalls, walk_doc, inspected]
  rw [walk_loop_state, resolveAll_logged]
  simp

end TreeClaims

/-- C4: for every tree, every resolver and every state, whatever `strings.ToLower` and
`url.Parse` compute, `walk_doc` returns, with or
without error, a tree with the same nodes in the same places, the same node types, data
and namespaces, the same number of attributes in the same order with the same namespaces
and keys, and the same value for every attribute that is not a candidate. -/
theorem walk_doc_frame {σ : Type} (lib : Lib) (resolve : Resolver σ)
    (outbase out_dir : Str) (s : σ)
    (ty : NodeType) (d ns : Str) (attr : List Attribute) (fc nx : Node) :
    ∃ r, walk_doc lib resolve (.mk ty d ns attr fc nx) outbase out_dir s = some r ∧
      sameFrame lib (.mk ty d ns attr fc nx) r.node = true := by
  refine ⟨_, rfl, ?_⟩
  simp [sameFrame, attrsFrame_refl, sameFrame_refl, walk_loop_frame]

/-- C5: for every tree whose inspected `src`/`href` values all parse, and every resolver,
whatever `strings.ToLower` and `url.Parse` compute,
`walk_doc` returns no error; every inspected attribute that is not a candidate is as it
was; every inspected candidate was resolved in the state reached by resolving all the
candidates before it in document order, whether those succeeded or failed, and holds the
path returned if its resolution succeeded and its original value if it failed; the final
state is the one reached by resolving all the candidates. -/
theorem walk_doc_partial_failure {σ : Type} (lib : Lib)
    (resolve : Resolver σ) (outbase out_dir : Str) (s : σ)
    (ty : NodeType) (d ns : Str) (attr : List Attribute) (fc nx : Node)
    (hparse : firstParseError lib (inspected (.mk ty d ns attr fc nx)) = none) :
    ∃ r, walk_doc lib resolve (.mk ty d ns attr fc nx) outbase out_dir s = some r ∧
      r.err = none ∧
      r.state = resolveAll resolve outbase
        (candidateURLs lib (inspected (.mk ty d ns attr fc nx))) s ∧
      ∀ (i : Nat) (a : Attribute), (inspected (.mk ty d ns attr fc nx)).get? i = some a →
        (inspected r.node).get? i = some
          (match candidateURL lib a with
           | none => a
           | some u =>
             rewritten a (resolve u outbase
               (resolveAll resolve outbase
                 (candidateURLs lib ((inspected (.mk ty d ns attr fc nx)).take i)) s)).1) := by
  simp only [inspected] at hparse
  refine ⟨_, rfl, ?_, ?_, ?_⟩
  · simp only [walk_loop_err, hparse]
  · simp only [walk_loop_state, inspected, beforeError_eq_self lib _ hparse]
  · intro i a ha
    simp only [inspected] at ha ⊢
    rw [walk_loop_attrs]
    apply walk_attrs_get lib resolve outbase _ s i a _ ha
    rw [beforeError_eq_self lib _ hparse]
    by_contra hlt
    rw [List.get?_eq_none.mpr (by omega)] at ha
    simp at ha

/-- C6: for every tree and every resolver, whatever `strings.ToLower` and `url.Parse`
compute, the error `walk_doc` returns is the parse
error of the first inspected `src`/`href` attribute, in document order, whose value does
not parse, and none if there is no such attribute; so it returns an error if and only if
there is one, whatever the resolver does.  The resolver is called on the candidates
before that attribute and on nothing else, and the attributes from that one on are as
they were. -/
theorem walk_doc_error {σ : Type} (lib : Lib) (resolve : Resolver σ)
    (outbase out_dir : Str) (s : σ)
    (ty : NodeType) (d ns : Str) (attr : List Attribute) (fc nx : Node) :
    ∃ r, walk_doc lib resolve (.mk ty d ns attr fc nx) outbase out_dir s = some r ∧
      r.err = firstParseError lib (inspected (.mk ty d ns attr fc nx)) ∧
      (r.err ≠ none ↔ ∃ a ∈ inspected (.mk ty d ns attr fc nx),
        isRef lib a = true ∧ ∃ e, lib.Parse a.Val = .error e) ∧
      resolverCalls lib resolve (.mk ty d ns attr fc nx) outbase out_dir s =
        candidateURLs lib (beforeError lib (inspected (.mk ty d ns attr fc nx))) ∧
      r.state = resolveAll resolve outbase
        (candidateURLs lib (beforeError lib (inspected (.mk ty d ns attr fc nx)))) s ∧
      ∃ done, inspected r.node = done ++ fromError lib (inspected (.mk ty d ns attr fc nx)) ∧
        done.length = (beforeError lib (inspected (.mk ty d ns attr fc nx))).length := by
  refine ⟨_, rfl, ?_, ?_, resolverCalls_eq lib resolve outbase out_dir ty d ns attr fc nx s,
    ?_, ?_⟩
  · simp only [walk_loop_err, inspected]
  · simp only [walk_loop_err, inspected]
    exact firstParseError_isSome lib _
  · simp only [walk_loop_state, inspected]
  · simp only [inspected]
    rw [walk_loop_attrs]
    exact walk_attrs_split lib resolve outbase _ s

/-- C9 (amended): for every tree whose inspected `src`/`href` values all parse, whatever
`strings.ToLower` and `url.Parse` compute, the
sequence of resolver invocations of `walk_doc` is the list of the candidate attributes of
the inspected elements, in document order, each once: the elements among the children of
the root and, in turn, among the children of inspected elements.  When the root is not an
element and only elements have children, these are all the elements of the tree in
depth-first pre-order. -/
theorem walk_doc_resolver_calls {σ : Type} (lib : Lib)
    (resolve : Resolver σ) (outbase out_dir : Str) (s : σ)
    (ty : NodeType) (d ns : Str) (attr : List Attribute) (fc nx : Node)
    (hparse : firstParseError lib (inspected (.mk ty d ns attr fc nx)) = none) :
    resolverCalls lib resolve (.mk ty d ns attr fc nx) outbase out_dir s =
      candidateURLs lib (inspected (.mk ty d ns attr fc nx)) ∧
    (ty ≠ .ElementNode → onlyElementsNest fc = true →
      resolverCalls lib resolve (.mk ty d ns attr fc nx) outbase out_dir s =
        candidateURLs lib (elementAttrs (.mk ty d ns attr fc nx))) := by
  have h := resolverCalls_eq lib resolve outbase out_dir ty d ns attr fc nx s
  rw [beforeError_eq_self lib _ hparse] at h
  refine ⟨h, fun hty hshape => ?_⟩
  rw [h]
  simp only [inspected, elementAttrs, if_neg hty, List.nil_append,
    inspectedFrom_eq_elementAttrsFrom fc hshape]

/-- C3 (amended): for every URL whose cleaned path has a parent-directory segment,
`download` returns the invalid-URL error and issues no call at all (the trace is unchanged),
and `walk_doc` leaves every inspected attribute whose value parses to that URL as it was. -/
theorem download_rejects_parent_segment (env : Env) (lib : Lib)
    (outbase out_dir : Str) (t : List Call)
    (ty : NodeType) (d ns : Str) (attr : List Attribute) (fc nx : Node)
    (i : Nat) (a : Attribute) (u : URL)
    (hseg : hasParentSegment (Clean u.Path) = true)
    (ha : (inspected (.mk ty d ns attr fc nx)).get? i = some a)
    (hu : lib.Parse a.Val = .ok u) :
    download env u outbase t = (.error (.invalidURL u), t) ∧
    ∃ r, walk_doc lib (download env) (.mk ty d ns attr fc nx) outbase out_dir t = some r ∧
      (inspected r.node).get? i = some a := by
  have hc := Contains_of_hasParentSegment _ hseg
  refine ⟨download_rejects env u outbase t hc, _, rfl, ?_⟩
  simp only [inspected] at ha ⊢
  rw [walk_loop_attrs]
  rcases walk_attrs_keep lib (download env) outbase _ t i a ha with h | ⟨u1, s1, v, h1, h2, _⟩
  · exact h
  · exfalso
    have hu1 := candidateURL_parse lib a u1 h1
    rw [hu] at hu1
    cases hu1
    rw [download_rejects env u outbase s1 hc] at h2
    simp at h2

/-- The walk over the sample document: the failed reference is kept, the others are
rewritten, the child and the later siblings included. -/
theorem sample_walk :
    (walk_doc sampleLib (download (world [] serveButMissing 100))
        (.mk .DocumentNode [] [] [] sampleBody .nil) "out/".toList "out".toList []).map
        (fun r => (r.err, r.node))
      = some (none, .mk .DocumentNode [] [] [] sampleBodyAfter .nil) := by
  decide

theorem walk_doc_partial_failure_witness :
    firstParseError sampleLib (inspected (.mk .DocumentNode [] [] [] sampleBody .nil)) = none ∧
    ∃ r, walk_doc sampleLib (download (world [] serveButMissing 100))
        (.mk .DocumentNode [] [] [] sampleBody .nil) "out/".toList "out".toList [] = some r ∧
      r.err = none ∧
      (inspected r.node).get? 0 = some (mkAttr "src" "https://example.com/missing.png") ∧
      (inspected r.node).get? 1 = some (mkAttr "href" "/extern/example.com/a/b.png") ∧
      (inspected r.node).get? 2 = some (mkAttr "src" "/extern/example.com/c.jpg") ∧
      (inspected r.node).get? 3 = some (mkAttr "href" "page.html") ∧
      (inspected r.node).get? 4 = some (mkAttr "HREF" "/extern/example.com/d.GIF") := by
  refine ⟨by decide, ?_⟩
  obtain ⟨r, h1, h2, _, h4⟩ :=
    walk_doc_partial_failure sampleLib (download (world [] serveButMissing 100))
      "out/".toList "out".toList [] .DocumentNode [] [] [] sampleBody .nil (by decide)
  exact ⟨r, h1, h2,
    (h4 0 (mkAttr "src" "https://example.com/missing.png") (by decide)).trans (by decide),
    (h4 1 (mkAttr "href" "https://example.com/a/b.png") (by decide)).trans (by decide),
    (h4 2 (mkAttr "src" "https://example.com/c.jpg") (by decide)).trans (by decide),
    (h4 3 (mkAttr "href" "page.html") (by decide)).trans (by decide),
    (h4 4 (mkAttr "HREF" "https://example.com/d.GIF") (by decide)).trans (by decide)⟩

/-- A suffix in upper case with a dotted capital I is a media suffix once lower-cased: the
image is resolved and rewritten. -/
theorem dotted_walk :
    candidateURLs sampleLib (inspected (.mk .DocumentNode [] [] [] dottedBody .nil))
      = [⟨"https".toList, "example.com".toList, "/a.GİF".toList, []⟩] ∧
    resolverCalls sampleLib (download (world [] (serveOK 100) 100))
        (.mk .DocumentNode [] [] [] dottedBody .nil) "out/".toList "out".toList []
      = [⟨"https".toList, "example.com".toList, "/a.GİF".toList, []⟩] ∧
    (walk_doc sampleLib (download (world [] (serveOK 100) 100))
        (.mk .DocumentNode [] [] [] dottedBody .nil) "out/".toList "out".toList []).map
        (fun r => (r.err, r.node))
      = some (none, .mk .DocumentNode [] [] [] dottedBodyAfter .nil) := by
  decide

/-- The walk over the broken document stops at the unparsable reference. -/
theorem broken_walk :
    (walk_doc sampleLib (download (world [] serveButMissing 100))
        (.mk .DocumentNode [] [] [] brokenBody .nil) "out/".toList "out".toList []).map
        (fun r => (r.err, r.node))
      = some (some (.sys "invalid URL escape".toList),
          .mk .DocumentNode [] [] [] brokenBodyAfter .nil) ∧
    resolverCalls sampleLib (download (world [] serveButMissing 100))
        (.mk .DocumentNode [] [] [] brokenBody .nil) "out/".toList "out".toList []
      = [exampleURL] := by
  decide

theorem walk_doc_resolver_calls_witness :
    firstParseError sampleLib (inspected (.mk .DocumentNode [] [] [] sampleBody .nil)) = none ∧
    resolverCalls sampleLib (download (world [] serveButMissing 100))
        (.mk .DocumentNode [] [] [] sampleBody .nil) "out/".toList "out".toList []
      = candidateURLs sampleLib (elementAttrs (.mk .DocumentNode [] [] [] sampleBody .nil)) :=
  ⟨by decide,
    (walk_doc_resolver_calls sampleLib (download (world [] serveButMissing 100))
      "out/".toList "out".toList [] .DocumentNode [] [] [] sampleBody .nil (by decide)).2
      (by decide) (by decide)⟩

/-- C9 as stated fails: the attributes of an element passed as the root are not
inspected, and neither is an element below a text node; in both trees every value parses,
there is a candidate, and the resolver is never called. -/
theorem walk_doc_uninspected_elements :
    (firstParseError sampleLib
        (elementAttrs (element "img" [mkAttr "src" "https://example.com/a/b.png"] .nil .nil))
        = none ∧
      candidateURLs sampleLib
        (elementAttrs (element "img" [mkAttr "src" "https://example.com/a/b.png"] .nil .nil))
        = [exampleURL] ∧
      resolverCalls sampleLib (download (world [] (serveOK 100) 100))
        (element "img" [mkAttr "src" "https://example.com/a/b.png"] .nil .nil)
        "out/".toList "out".toList [] = []) ∧
    (firstParseError sampleLib
        (elementAttrs (.mk .DocumentNode [] [] [] imageBelowText .nil)) = none ∧
      candidateURLs sampleLib (elementAttrs (.mk .DocumentNode [] [] [] imageBelowText .nil))
        = [exampleURL] ∧
      resolverCalls sampleLib (download (world [] (serveOK 100) 100))
        (.mk .DocumentNode [] [] [] imageBelowText .nil) "out/".toList "out".toList [] = []) := by
  decide

theorem download_rejects_parent_segment_witness :
    hasParentSegment (Clean "../a.png".toList) = true ∧
    (inspected (.mk .DocumentNode [] [] [] parentBody .nil)).get? 0
      = some (mkAttr "src" "../a.png") ∧
    sampleParse (mkAttr "src" "../a.png").Val = .ok ⟨[], [], "../a.png".toList, []⟩ ∧
    (download (world [] (serveOK 100) 100) ⟨[], [], "../a.png".toList, []⟩ "out/".toList []
        = (.error (.invalidURL ⟨[], [], "../a.png".toList, []⟩), []) ∧
      ∃ r, walk_doc sampleLib (download (world [] (serveOK 100) 100))
          (.mk .DocumentNode [] [] [] parentBody .nil) "out/".toList "out".toList [] = some r ∧
        (inspected r.node).get? 0 = some (mkAttr "src" "../a.png")) :=
  ⟨by decide, by decide, by decide,
    download_rejects_parent_segment (world [] (serveOK 100) 100) sampleLib "out/".toList
      "out".toList [] .DocumentNode [] [] [] parentBody .nil 0 (mkAttr "src" "../a.png")
      ⟨[], [], "../a.png".toList, []⟩ (by decide) (by decide) (by decide)⟩

/-- C3 as stated fails on the URL it names: the path of `http://h/../../etc/passwd`
cleans to `/etc/passwd`, which has no parent-directory segment, and `download` does not
reject it: in a world that serves it, it is downloaded to `out/extern/h/etc/passwd`. -/
theorem download_accepts_passwd :
    sampleParse "http://h/../../etc/passwd".toList = .ok passwdURL ∧
    Clean passwdURL.Path = "/etc/passwd".toList ∧
    hasParentSegment (Clean passwdURL.Path) = false ∧
    download (world [] (serveOK 100) 100) passwdURL "out/".toList []
      = (.ok "/extern/h/etc/passwd".toList,
         [.stat "out/extern/h/etc/passwd".toList,
          .mkdirAll "out/extern/h/etc".toList,
          .createTemp "out/".toList "download_tmp_".toList,
          .httpGet passwdURL,
          .copy "out/download_tmp_1".toList,
          .close "out/download_tmp_1".toList,
          .rename "out/download_tmp_1".toList "out/extern/h/etc/passwd".toList,
          .closeBody,
          .close "out/download_tmp_1".toList,
          .remove "out/download_tmp_1".toList,
          .sleep]) := by
  decide

/-- Whenever the directory of the file, with a separator added, begins with the absolute
root followed by a separator, the pipeline is handed the output base followed by the rest
of that directory, and the output file below it. -/
theorem walk_fpath_mirrored (getwd : Except Err Str)
    (walk_file : Str → Str → Str → Str → Option Err) (inbase outbase s base sabs rel : Str)
    (hs : HasSuffix s ".html".toList = true)
    (hb : Abs getwd inbase = .ok base) (ha : Abs getwd s = .ok sabs)
    (hrel : Dir sabs ++ "/".toList = base ++ "/".toList ++ rel) :
    walk_fpath getwd walk_file inbase outbase s false none
      = (match walk_file s outbase (Clean (outbase ++ rel)) (outbase ++ rel ++ Base s) with
         | some e => some (.cannotWalk s e)
         | none => none) := by
  simp only [walk_fpath, hs, hb, ha, hrel, TrimPrefix_append, Bool.not_false, Bool.not_true,
    if_true, Bool.false_eq_true, if_false]

/-- C10: what `walk_fpath` hands to the pipeline.  For the root `doc.html`, a document in
the working directory `/w`, the output directory is `out/w` and the output file
`out//w/doc.html`; for the root `/` and the file `/a/x.html` the output file is
`out//a/x.html`; for the root `in` and the file `in/sub/x.html` it is `out/sub/x.html`,
the mirrored path. -/
theorem walk_fpath_unmirrored (walk_file : Str → Str → Str → Str → Option Err) :
    walk_fpath (.ok "/w".toList) walk_file "doc.html".toList "out/".toList
        "doc.html".toList false none
      = (match walk_file "doc.html".toList "out/".toList "out/w".toList
            "out//w/doc.html".toList with
         | some e => some (.cannotWalk "doc.html".toList e)
         | none => none) ∧
    walk_fpath (.ok "/w".toList) walk_file "/".toList "out/".toList
        "/a/x.html".toList false none
      = (match walk_file "/a/x.html".toList "out/".toList "out/a".toList
            "out//a/x.html".toList with
         | some e => some (.cannotWalk "/a/x.html".toList e)
         | none => none) ∧
    walk_fpath (.ok "/w".toList) walk_file "in".toList "out/".toList
        "in/sub/x.html".toList false none
      = (match walk_file "in/sub/x.html".toList "out/".toList "out/sub".toList
            "out/sub/x.html".toList with
         | some e => some (.cannotWalk "in/sub/x.html".toList e)
         | none => none) := by
  refine ⟨?_, ?_, ?_⟩ <;> rfl

end Downsplode
